import Mathlib

/-!
Verification development for the Roku OSS bucket scanner
(src/Roku.js and src/unnamed/part_000, two near-duplicate variants).

The JavaScript source is shallowly embedded:
* the regex `OSS_REGEX` and `extractBuckets` as an executable
  leftmost/greedy/non-overlapping scanner over `List Char`;
* `fetchHTTP` and `putTest` over an explicit transport-outcome type;
* the per-target pipeline of the main IIFE (level selection) as a pure
  function of a per-target oracle, instrumented with call counters;
* the two work pools (`runWithRealtimeOutput` from Roku.js, which attaches
  a catch handler to every worker, and `runPool` from part_000, which does
  not) as folds in the `Except` monad;
* the bucket/record aggregation loop as explicit state passing;
* `getBrowser` / the `browserLaunching` flag as a small-step interleaving
  machine, and `fetchRendered` with explicit context-lifecycle flags.
-/

/- ===== Extractor: OSS_REGEX and extractBuckets ===== -/

/-- Character class `[a-zA-Z0-9.-]` of the hostname part of OSS_REGEX. -/
def isHostChar (c : Char) : Bool :=
  c.isAlphanum || c == '.' || c == '-'

/-- Character class `[a-z0-9-]` of the region part of OSS_REGEX. -/
def isRegionChar (c : Char) : Bool :=
  c.isLower || c.isDigit || c == '-'

/-- Length of the maximal prefix of `l` whose characters all satisfy `p`
(the longest text a greedy `+` over the class `p` can consume). -/
def takeWhileCount (p : Char → Bool) : List Char → Nat
  | [] => 0
  | c :: cs => if p c then takeWhileCount p cs + 1 else 0

/-- Match of the regex tail `\.oss-[a-z0-9-]+\.aliyuncs\.com` at the head of
`l`; returns the matched length.  The region class excludes `'.'`, so the
greedy region run is forced and the match is deterministic. -/
def suffixMatch (l : List Char) : Option Nat :=
  if l.take 5 = ".oss-".toList then
    let r := takeWhileCount isRegionChar (l.drop 5)
    if r = 0 then none
    else if ((l.drop 5).drop r).take 13 = ".aliyuncs.com".toList then
      some (5 + r + 13)
    else none
  else none

/-- Backtracking search for the greedy hostname length: try host lengths from
`k` (initially the maximal class run) down to 1, the JS engine's preference
order for `[a-zA-Z0-9.-]+`, and return total matched length `host + tail`. -/
def findHost (rest : List Char) : Nat → Option Nat
  | 0 => none
  | k + 1 =>
    match suffixMatch (rest.drop (k + 1)) with
    | some j => some ((k + 1) + j)
    | none => findHost rest k

/-- Length of the match of
`https?:\/\/[a-zA-Z0-9.-]+\.oss-[a-z0-9-]+\.aliyuncs\.com` at the head of
`l`, or `none`.  `https?` is greedy, so the `https://` literal is tried
first; the two scheme branches are mutually exclusive. -/
def matchLen (l : List Char) : Option Nat :=
  if l.take 8 = "https://".toList then
    (findHost (l.drop 8) (takeWhileCount isHostChar (l.drop 8))).map (fun m => 8 + m)
  else if l.take 7 = "http://".toList then
    (findHost (l.drop 7) (takeWhileCount isHostChar (l.drop 7))).map (fun m => 7 + m)
  else none

/-- Global scan of `text.match(OSS_REGEX)`: left to right, at each position
try the regex; on a match emit it and continue after it (non-overlapping),
otherwise advance one character.  `fuel` is an upper bound on steps; every
match is nonempty, so fuel `l.length` never truncates the scan. -/
def scanAux : Nat → List Char → List (List Char)
  | 0, _ => []
  | _, [] => []
  | fuel + 1, c :: cs =>
    match matchLen (c :: cs) with
    | some n => (c :: cs).take n :: scanAux fuel ((c :: cs).drop n)
    | none => scanAux fuel cs

/-- All (non-overlapping, leftmost, greedy) matches of OSS_REGEX in `s`,
as strings, in match order. -/
def scanStrings (s : String) : List String :=
  (scanAux s.toList.length s.toList).map (fun cs => String.mk cs)

/-- First-occurrence deduplication, the order produced by
`[...new Set(array)]` in JavaScript. -/
def dedupFirst {α : Type} [DecidableEq α] : List α → List α
  | [] => []
  | x :: xs => x :: (dedupFirst xs).filter (fun y => decide (y ≠ x))

/-- `extractBuckets(text)` from the source:
`[...new Set(text.match(OSS_REGEX) || [])]`. -/
def extractBuckets (text : String) : List String :=
  dedupFirst (scanStrings text)

/-- Specification-level pattern predicate: `l` is (in full) a word of
`https?://<host>.oss-<region>.aliyuncs.com` with nonempty host over
`[a-zA-Z0-9.-]` and nonempty region over `[a-z0-9-]`.  Stated structurally,
independently of the scanner's search strategy. -/
def MatchesPattern (l : List Char) : Prop :=
  ∃ sch host region,
    (sch = "http://".toList ∨ sch = "https://".toList)
    ∧ host ≠ [] ∧ host.all isHostChar = true
    ∧ region ≠ [] ∧ region.all isRegionChar = true
    ∧ l = sch ++ host ++ ".oss-".toList ++ region ++ ".aliyuncs.com".toList

/- ===== Fetcher and Write-Probe ===== -/

/-- Outcome of one axios transport call: a response with some HTTP status
and body (axios never rejects on status, since `validateStatus: () => true`),
or a network-level failure (timeout, DNS, refused connection, malformed
response), which axios surfaces as a thrown error. -/
inductive FetchOutcome where
  | success (status : Nat) (body : String)
  | failure
deriving DecidableEq

/-- `fetchHTTP(url)`: returns `res.data || ''` for any response regardless of
status, and `''` when the transport throws (the catch block). -/
def fetchHTTP : FetchOutcome → String
  | FetchOutcome.success _ body => if body = "" then "" else body
  | FetchOutcome.failure => ""

/-- Result value of `putTest` `{ success, log }`. -/
structure PutResult where
  success : Bool
  log : String
deriving DecidableEq

/-- `bucket.replace(/\/$/, '')`: strip one trailing slash. -/
def stripTrailingSlash (s : String) : String :=
  if s.endsWith "/" then String.mk s.toList.dropLast else s

/-- `putTest(bucket)` with the random object key abstracted as `name` and the
transport outcome of the PUT as `o`: success iff the response status is in
`[200, 300)`; any non-2xx status or thrown transport error yields failure. -/
def putTest (bucket name : String) (o : FetchOutcome) : PutResult :=
  let url := stripTrailingSlash bucket ++ "/" ++ name
  match o with
  | FetchOutcome.success s _ =>
    if 200 ≤ s ∧ s < 300 then
      { success := true, log := "        [PUT OK] " ++ url }
    else
      { success := false, log := "        [PUT FAIL] " ++ bucket }
  | FetchOutcome.failure =>
    { success := false, log := "        [PUT FAIL] " ++ bucket }

/- ===== LEVEL computation and the per-target pipeline ===== -/

/-- Value of `argv.L` as produced by minimist: a number, a string, or a
boolean (bare `-L`). -/
inductive ArgV where
  | num (n : Int)
  | str (s : String)
  | boolTrue
  | boolFalse
deriving DecidableEq

/-- JavaScript truthiness test on an `ArgV` value. -/
def falsy : ArgV → Bool
  | ArgV.num n => n = 0
  | ArgV.str s => s = ""
  | ArgV.boolTrue => false
  | ArgV.boolFalse => true

/-- `parseInt(s, 10)`: skip whitespace, optional sign, then leading decimal
digits; `none` models NaN (no digits). -/
def parseIntStr (s : String) : Option Int :=
  let l := s.toList.dropWhile (fun c => c.isWhitespace)
  let core : List Char → Option Int := fun rest =>
    let ds := rest.takeWhile (fun c => c.isDigit)
    if ds = [] then none
    else some (ds.foldl (fun a c => a * 10 + (Int.ofNat (c.toNat - 48))) 0)
  match l with
  | '-' :: rest => (core rest).map (fun v => -v)
  | '+' :: rest => core rest
  | rest => core rest

/-- `parseInt(v, 10)` for a minimist value. -/
def parseIntJS : ArgV → Option Int
  | ArgV.num n => some n
  | ArgV.str s => parseIntStr s
  | ArgV.boolTrue => none
  | ArgV.boolFalse => none

/-- `const LEVEL = parseInt(argv.L || 2, 10)`.  `none` on the left models an
absent `-L`; `none` on the right models NaN.  A falsy `argv.L` (absent,
`0`, empty string, `false`) makes `argv.L || 2` evaluate to `2`. -/
def levelOf (argL : Option ArgV) : Option Int :=
  match argL with
  | none => some 2
  | some v => if falsy v then some 2 else parseIntJS v

/-- Per-target oracle: the body `fetchHTTP` would deliver for this target and
the (raw, pre-Set) bucket list `fetchRendered` would deliver. -/
structure TargetOracle where
  fetchBody : String
  renderList : List String
deriving DecidableEq

/-- Result of one target's pipeline, instrumented with how many times the
Fetcher (`fetchHTTP`) and the Renderer (`fetchRendered`) were invoked. -/
structure PipeResult where
  buckets : List String
  fetchCalls : Nat
  renderCalls : Nat
deriving DecidableEq

/-- The per-target pipeline of the main IIFE (identical in both source
files): three independent `if` statements on `LEVEL === 1/2/3`; level 2
fetches and falls back to render exactly when the extracted bucket list is
empty (`!buckets.length`).  `fetchRendered` returns `[...found]` of a `Set`,
modelled by `dedupFirst` of the render oracle.  The level is `Option Int`;
`none` models NaN, which is `===`-equal to nothing. -/
def runPipeline (level : Option Int) (o : TargetOracle) : PipeResult :=
  let s0 : PipeResult := ⟨[], 0, 0⟩
  let s1 :=
    if level = some 1 then
      ⟨extractBuckets o.fetchBody, s0.fetchCalls + 1, s0.renderCalls⟩
    else s0
  let s2 :=
    if level = some 2 then
      let bs := extractBuckets o.fetchBody
      if bs.isEmpty then
        ⟨dedupFirst o.renderList, s1.fetchCalls + 1, s1.renderCalls + 1⟩
      else
        ⟨bs, s1.fetchCalls + 1, s1.renderCalls⟩
    else s1
  if level = some 3 then
    ⟨dedupFirst o.renderList, s2.fetchCalls, s2.renderCalls + 1⟩
  else s2

/- ===== Work pools ===== -/

/-- The Roku.js pool `runWithRealtimeOutput`: every worker promise gets a
`.catch` handler at the pipeline boundary, so a worker failure is swallowed
(that target contributes no buckets) and the loop over targets continues.
Modelled as the per-target contribution list; a worker is a fallible
computation returning the target's bucket contribution. -/
def runWithRealtimeOutput (worker : String → Except String (List String)) :
    List String → List (String × List String)
  | [] => []
  | t :: ts =>
    (t, match worker t with
        | Except.ok bs => bs
        | Except.error _ => []) :: runWithRealtimeOutput worker ts

/-- The part_000 pool `runPool`: each pool worker does `await worker(cur)`
with no try/catch, so a worker exception rejects the pool promise and the
remaining results are lost.  Modelled in the `Except` monad. -/
def runPool (worker : String → Except String (List String)) :
    List String → Except String (List (String × List String))
  | [] => Except.ok []
  | t :: ts =>
    match worker t with
    | Except.ok bs => (runPool worker ts).map (fun rest => (t, bs) :: rest)
    | Except.error e => Except.error e

/-- A worker that throws on one concrete target and succeeds on others. -/
def badWorker : String → Except String (List String) :=
  fun t =>
    if t = "http://u1" then Except.error "boom"
    else Except.ok ["http://b.oss-cn-a.aliyuncs.com"]

/- ===== Global aggregation (allBuckets / records) ===== -/

/-- One row of the global `records` list:
`{ target, bucket, put: putStatus, putBool }`. -/
structure ProbeRecord where
  target : String
  bucket : String
  putStatus : String
  putBool : Bool
deriving DecidableEq

/-- The shared mutable run state: the global `allBuckets` set (insertion
ordered, duplicate-free) and the global `records` list. -/
structure GState where
  allBuckets : List String
  records : List ProbeRecord
deriving DecidableEq

/-- `Set.prototype.add`: inserting an element already present is a no-op,
otherwise it is appended (JS sets preserve insertion order). -/
def insertSet (s : List String) (b : String) : List String :=
  if b ∈ s then s else s ++ [b]

/-- One iteration of the bucket loop `for (const b of buckets)`:
`allBuckets.add(b)`, optionally a PUT probe (enabled by
`argv.X === 'PUT' && !PIPE_MODE`), then `records.push(...)`.  `putO` gives
the transport outcome of the PUT for each bucket; the random key is
abstracted as a fixed name. -/
def processBucket (putO : String → FetchOutcome) (putEnabled : Bool)
    (t : String) (st : GState) (b : String) : GState :=
  let ab := insertSet st.allBuckets b
  if putEnabled then
    let pr := putTest b "k.ppa" (putO b)
    ⟨ab, st.records ++ [⟨t, b, if pr.success then "PUT_OK" else "", pr.success⟩]⟩
  else
    ⟨ab, st.records ++ [⟨t, b, "", false⟩]⟩

/-- One target's whole worker body: run the pipeline, then fold the bucket
loop over its discovered buckets. -/
def processTarget (level : Option Int) (oracleOf : String → TargetOracle)
    (putO : String → FetchOutcome) (putEnabled : Bool)
    (st : GState) (t : String) : GState :=
  ((runPipeline level (oracleOf t)).buckets).foldl (processBucket putO putEnabled t) st

/-- A whole run: every target's worker, starting from the empty global
state. -/
def runRun (level : Option Int) (oracleOf : String → TargetOracle)
    (putO : String → FetchOutcome) (putEnabled : Bool)
    (targets : List String) : GState :=
  targets.foldl (processTarget level oracleOf putO putEnabled) ⟨[], []⟩

/- ===== getBrowser / browserLaunching interleaving machine ===== -/

/-- Program counter of one `getBrowser()` call.  The JS event loop runs the
code between two `await`s atomically; the yield points of `getBrowser` are
the sleep inside the `while (browserLaunching)` loop and the
`chromium.launch` await, giving exactly these locations. -/
inductive GBPc where
  | start
  | waitLoop
  | launching
  | done (res : Option Nat)
deriving DecidableEq

/-- Shared browser-singleton state: the module globals `browser` and
`browserLaunching`, the program counters of all (potential) concurrent
callers, and a count of launch attempts started. -/
structure BrowserState where
  browser : Option Nat
  browserLaunching : Bool
  callers : Nat → GBPc
  launchCount : Nat

/-- Update one caller's program counter. -/
def setCaller (cs : Nat → GBPc) (i : Nat) (pc : GBPc) : Nat → GBPc :=
  fun j => if j = i then pc else cs j

/-- One atomic step of caller `i`, following `getBrowser` line by line:
* at `start`: `if (browser) return browser;` else `if (browserLaunching)`
  enter the wait loop; else set `browserLaunching = true` and begin a launch
  attempt (this whole prefix contains no `await`, so it is one atomic step);
* at `waitLoop`: re-check the flag after a sleep; return `browser` once the
  flag is clear;
* at `launching`: the `chromium.launch` await resolves with the outcome
  `oracle` assigns to this attempt (on failure the catch leaves `browser`
  unchanged), then `browserLaunching = false; return browser;`;
* at `done`: the call has returned. -/
def browserStep (oracle : Nat → Option Nat) (st : BrowserState) (i : Nat) :
    BrowserState :=
  match st.callers i with
  | GBPc.start =>
    match st.browser with
    | some b => { st with callers := setCaller st.callers i (GBPc.done (some b)) }
    | none =>
      if st.browserLaunching then
        { st with callers := setCaller st.callers i GBPc.waitLoop }
      else
        { st with callers := setCaller st.callers i GBPc.launching,
                  browserLaunching := true,
                  launchCount := st.launchCount + 1 }
  | GBPc.waitLoop =>
    if st.browserLaunching then st
    else { st with callers := setCaller st.callers i (GBPc.done st.browser) }
  | GBPc.launching =>
    let nb : Option Nat :=
      match oracle (st.launchCount - 1) with
      | some h => some h
      | none => st.browser
    { st with browser := nb, browserLaunching := false,
              callers := setCaller st.callers i (GBPc.done nb) }
  | GBPc.done _ => st

/-- Initial state: no browser, flag clear, every caller about to enter
`getBrowser`. -/
def browserInit : BrowserState :=
  ⟨none, false, fun _ => GBPc.start, 0⟩

/-- Run a concrete interleaving: `acts` names which caller steps next. -/
def browserRun (oracle : Nat → Option Nat) (acts : List Nat) : BrowserState :=
  acts.foldl (browserStep oracle) browserInit

/-- A launch oracle whose attempts all succeed (with handle 5). -/
def demoOracleS : Nat → Option Nat := fun _ => some 5

/-- A launch oracle whose first attempt fails and later attempts succeed. -/
def oracleFlaky : Nat → Option Nat := fun k => if k = 0 then none else some 7

/-- A launch oracle whose attempts all fail. -/
def oracleFail : Nat → Option Nat := fun _ => none

/- ===== fetchRendered: per-call context lifecycle ===== -/

/-- How one `fetchRendered` call's browser interaction goes:
`newContext` throws; `newPage` throws; `page.goto` throws (navigation
timeout / crash) after the page issued `reqs` requests; `page.content`
throws after `reqs` requests; or full success with requests `reqs` and final
rendered body `html`. -/
inductive RenderScript where
  | ctxFail
  | pageFail
  | gotoFail (reqs : List String)
  | contentFail (reqs : List String)
  | ok (reqs : List String) (html : String)
deriving DecidableEq

/-- Observable result of one `fetchRendered` call: the returned bucket list
plus lifecycle facts about the per-call context and the shared browser. -/
structure RenderResult where
  buckets : List String
  contextOpened : Bool
  contextClosed : Bool
  browserClosed : Bool
deriving DecidableEq

/-- Matches collected by the `page.on('request', ...)` handler: for each
request URL, all OSS_REGEX matches, in order. -/
def requestMatches (reqs : List String) : List String :=
  (reqs.map scanStrings).flatten

/-- Whether the script is the fully successful path (the only path of the
`try` block that reaches `await context.close()`). -/
def scriptOk : RenderScript → Bool
  | RenderScript.ok _ _ => true
  | _ => false

/-- `fetchRendered(url)` from Roku.js, given the `getBrowser` result `bw` and
the per-call script.  `found` is a `Set`, so the returned list is the
first-occurrence dedup of request matches followed by body matches.
`await context.close()` is the last statement of the `try` block: every
throwing path is caught (the call still returns `[...found]`) but skips the
close; the shared browser is never closed here. -/
def fetchRendered (bw : Option Nat) (scr : RenderScript) : RenderResult :=
  match bw with
  | none => ⟨[], false, false, false⟩
  | some _ =>
    match scr with
    | RenderScript.ctxFail => ⟨[], false, false, false⟩
    | RenderScript.pageFail => ⟨[], true, false, false⟩
    | RenderScript.gotoFail reqs => ⟨dedupFirst (requestMatches reqs), true, false, false⟩
    | RenderScript.contentFail reqs => ⟨dedupFirst (requestMatches reqs), true, false, false⟩
    | RenderScript.ok reqs html =>
      ⟨dedupFirst (requestMatches reqs ++ scanStrings html), true, true, false⟩

/- ===== Shared concrete inputs for witnesses and counterexamples ===== -/

/-- A target oracle whose fetched body is exactly one bucket URL. -/
def demoOracle : TargetOracle := ⟨"http://a.oss-x.aliyuncs.com", []⟩

/-- Every target resolves to `demoOracle`. -/
def demoOracleOf : String → TargetOracle := fun _ => demoOracle

/-- Every PUT probe fails at the transport level. -/
def demoPutO : String → FetchOutcome := fun _ => FetchOutcome.failure

/-- Text containing two overlapping pattern words sharing a start: the
greedy scan finds only the longer one. -/
def exTextC3 : String := "http://a.oss-x.aliyuncs.com.oss-y.aliyuncs.com"

/-- Shorter pattern word that occurs in `exTextC3` (as a prefix) but is not
returned by `extractBuckets`. -/
def exSubC3 : String := "http://a.oss-x.aliyuncs.com"

/- ===== Invariants of the browser machine ===== -/

/-- Structural invariant of `getBrowser` that holds for every launch oracle:
at most one caller is ever inside the launch section, and while a launch is
in flight the handle is still unset and the guard flag is up. -/
def LaunchInv (st : BrowserState) : Prop :=
  (∀ i j, st.callers i = GBPc.launching → st.callers j = GBPc.launching → i = j)
  ∧ (∀ i, st.callers i = GBPc.launching →
      st.browser = none ∧ st.browserLaunching = true)

/-- Strengthened invariant that holds when every launch attempt succeeds:
additionally, at most one attempt is ever started, and once one has started
either it is still in flight or the handle is set. -/
def SuccInv (st : BrowserState) : Prop :=
  LaunchInv st
  ∧ st.launchCount ≤ 1
  ∧ (st.launchCount = 0 →
      st.browser = none ∧ st.browserLaunching = false
      ∧ ∀ i, st.callers i ≠ GBPc.launching)
  ∧ (st.launchCount = 1 →
      st.browserLaunching = true ∨ st.browser.isSome = true)

/-- Invariant that holds when every launch attempt fails: the handle stays
unset and every completed `getBrowser` call returned `null`. -/
def FailInv (st : BrowserState) : Prop :=
  st.browser = none
  ∧ ∀ i res, st.callers i = GBPc.done res → res = none

/-- Whether the script gets past `bw.newContext()` (so a per-call browsing
context was actually created). -/
def scriptOpensCtx : RenderScript → Bool
  | RenderScript.ctxFail => false
  | _ => true

/- =====================  Theorems  ===================== -/

/-- Claim C4: `fetchHTTP` never propagates an error and always returns a
string: any HTTP status is accepted and its body content returned with the
status not surfaced (the result is independent of the status), and any
network-level failure yields the empty string.  Totality is expressed by
`fetchHTTP` being a total function into `String`. -/
theorem fetchHTTP_total_spec (s s' : Nat) (b : String) :
    fetchHTTP (FetchOutcome.success s b) = b
    ∧ fetchHTTP (FetchOutcome.success s b) = fetchHTTP (FetchOutcome.success s' b)
    ∧ fetchHTTP FetchOutcome.failure = "" := by
  refine ⟨?_, rfl, rfl⟩
  by_cases hb : b = ""
  · simp [fetchHTTP, hb]
  · simp [fetchHTTP, hb]

/-- Claim C5: `putTest` never throws (it is total into `PutResult`) and its
`success` flag is `true` exactly when the PUT transport produced a response
with status in `[200, 300)`; in particular a stubbed 201 yields success,
while 403 and a transport-level failure both yield failure. -/
theorem putTest_classification (bucket name : String) (o : FetchOutcome) :
    ((putTest bucket name o).success = true
      ↔ ∃ s b, o = FetchOutcome.success s b ∧ 200 ≤ s ∧ s < 300)
    ∧ (putTest bucket name (FetchOutcome.success 201 "body")).success = true
    ∧ (putTest bucket name (FetchOutcome.success 403 "denied")).success = false
    ∧ (putTest bucket name FetchOutcome.failure).success = false := by
  refine ⟨?_, rfl, rfl, rfl⟩
  cases o with
  | failure => simp [putTest]
  | success s b =>
    by_cases h : 200 ≤ s ∧ s < 300
    · constructor
      · intro _
        exact ⟨s, b, rfl, h.1, h.2⟩
      · intro _
        simp [putTest, h]
    · simp only [putTest, if_neg h]
      constructor
      · intro hfalse; cases hfalse
      · rintro ⟨s', b', heq, h1, h2⟩
        injection heq with hs hb
        subst hs
        exact absurd ⟨h1, h2⟩ h

/-- Claim C1: level-selection invariant of the per-target pipeline.  The
Fetcher is invoked exactly once iff `LEVEL === 1` or `LEVEL === 2`, never
otherwise (so never with level 3); the Renderer is invoked exactly once iff
`LEVEL === 3`, or `LEVEL === 2` with an empty fetched-and-extracted bucket
list, and never otherwise (so never with level 1, even when zero buckets are
found).  `none` models a NaN level. -/
theorem level_selection_invariant (level : Option Int) (o : TargetOracle) :
    (runPipeline level o).fetchCalls
      = (if level = some 1 ∨ level = some 2 then 1 else 0)
    ∧ (runPipeline level o).renderCalls
      = (if level = some 3
            ∨ (level = some 2 ∧ (extractBuckets o.fetchBody).isEmpty = true)
         then 1 else 0) := by
  rcases level with _ | n
  · simp [runPipeline]
  · rcases eq_or_ne n 1 with h1 | h1
    · subst h1; simp [runPipeline]
    · rcases eq_or_ne n 2 with h2 | h2
      · subst h2
        by_cases hE : (extractBuckets o.fetchBody).isEmpty
        · simp [runPipeline, hE]
        · simp [runPipeline, hE]
      · rcases eq_or_ne n 3 with h3 | h3
        · subst h3; simp [runPipeline]
        · simp [runPipeline, h1, h2, h3]

/-- Claim C8 (counterexample): when `page.goto` throws (for example a
navigation timeout), the catch block of `fetchRendered` swallows the error
but `await context.close()` — which is inside the `try`, after navigation —
is skipped: the per-call context was opened and is not closed.  This
refutes "closes the per-call browsing context it opened on every exit
path". -/
theorem context_leaked_on_goto_failure :
    (fetchRendered (some 0) (RenderScript.gotoFail [])).contextOpened = true
    ∧ (fetchRendered (some 0) (RenderScript.gotoFail [])).contextClosed = false :=
  ⟨rfl, rfl⟩

/-- Claim C8 (amended): `fetchRendered` never closes the shared browser, and
it closes the per-call context exactly on the fully successful path (browser
available and navigation, body retrieval and extraction all succeed); on
every throwing path after the context was opened, the context is left open.
The successful close does presuppose the context was opened. -/
theorem context_closed_only_on_success (bw : Option Nat) (scr : RenderScript) :
    (fetchRendered bw scr).browserClosed = false
    ∧ (fetchRendered bw scr).contextClosed = (bw.isSome && scriptOk scr)
    ∧ (fetchRendered bw scr).contextOpened = (bw.isSome && scriptOpensCtx scr) := by
  cases bw <;> cases scr <;>
    simp [fetchRendered, scriptOk, scriptOpensCtx]

/-- Claim C2 (counterexample): the part_000 pool `runPool` does `await
worker(cur)` with no catch at the pipeline boundary, so one worker
exception rejects the whole pool: with a worker that throws on the first
target, the pool result is the error — the second target's result is lost —
contradicting "no pipeline exception ever aborts the pool".  The Roku.js
pool on the same input swallows the error and continues. -/
theorem runPool_uncaught_abort :
    runPool badWorker ["http://u1", "http://u2"] = Except.error "boom"
    ∧ runWithRealtimeOutput badWorker ["http://u1", "http://u2"]
        = [("http://u1", []), ("http://u2", ["http://b.oss-cn-a.aliyuncs.com"])] := by
  exact ⟨rfl, rfl⟩

/-- Claim C2 (amended): in Roku.js, `runWithRealtimeOutput` attaches a catch
handler to every worker promise, so every target is processed exactly once,
in order, and a target whose pipeline throws contributes exactly zero
buckets while the pool continues; part_000's `runPool` does not catch (see
the counterexample). -/
theorem caught_pipeline_errors (worker : String → Except String (List String))
    (targets : List String) :
    (runWithRealtimeOutput worker targets).map Prod.fst = targets
    ∧ ∀ t bs, (t, bs) ∈ runWithRealtimeOutput worker targets →
        worker t = Except.ok bs ∨ (bs = [] ∧ ∃ e, worker t = Except.error e) := by
  induction targets with
  | nil =>
    refine ⟨rfl, ?_⟩
    intro t bs h
    simp [runWithRealtimeOutput] at h
  | cons t ts ih =>
    constructor
    · simp [runWithRealtimeOutput, ih.1]
    · intro t' bs h
      simp only [runWithRealtimeOutput, List.mem_cons] at h
      rcases h with h | h
      · have ht : t' = t := congrArg Prod.fst h
        have hbs : bs = (match worker t with
          | Except.ok bs => bs
          | Except.error _ => []) := congrArg Prod.snd h
        subst ht
        cases hw : worker t' with
        | ok bs' =>
          left
          rw [hw] at hbs
          have hbs' : bs = bs' := hbs
          exact congrArg Except.ok hbs'.symm
        | error e =>
          right
          rw [hw] at hbs
          have hbs' : bs = [] := hbs
          exact ⟨hbs', e, rfl⟩
      · exact ih.2 t' bs h

/-- Claim C2 (witness): instantiation of the amended theorem at the failing
worker and the failing target: its contribution is empty or its result
recorded as-is. -/
theorem caught_pipeline_errors_witness :
    badWorker "http://u1" = Except.ok []
    ∨ (([] : List String) = [] ∧ ∃ e, badWorker "http://u1" = Except.error e) :=
  (caught_pipeline_errors badWorker ["http://u1", "http://u2"]).2
    "http://u1" [] (by decide)

/-- Claim C10 (counterexample): `-L 0` does not give an inert pipeline.
minimist parses `0` as the number 0, which is falsy, so
`parseInt(argv.L || 2, 10)` evaluates to the default level 2: the pipeline
performs a fetch (and extracts buckets) instead of doing nothing. -/
theorem level_zero_falls_back_to_smart :
    levelOf (some (ArgV.num 0)) = some 2
    ∧ (runPipeline (levelOf (some (ArgV.num 0))) demoOracle).fetchCalls = 1
    ∧ (runPipeline (levelOf (some (ArgV.num 0))) demoOracle).buckets
        = ["http://a.oss-x.aliyuncs.com"] := by
  refine ⟨by decide, by decide, by decide⟩

/-- Claim C10 (amended): for every computed LEVEL outside {1, 2, 3} — for
example `-L 5`, or a non-numeric value whose `parseInt` is NaN (`none`) —
each target's pipeline performs neither a fetch nor a render and yields an
empty bucket list, and the whole run ends with an empty global bucket set
and empty records.  The exception is `-L 0`: `0` is falsy, so
`argv.L || 2` replaces it with the default level 2 (see counterexample). -/
theorem out_of_range_level_inert (level : Option Int) (o : TargetOracle)
    (oracleOf : String → TargetOracle) (putO : String → FetchOutcome)
    (putEnabled : Bool) (targets : List String)
    (h1 : level ≠ some 1) (h2 : level ≠ some 2) (h3 : level ≠ some 3) :
    runPipeline level o = ⟨[], 0, 0⟩
    ∧ runRun level oracleOf putO putEnabled targets = ⟨[], []⟩ := by
  have hp : ∀ o' : TargetOracle, runPipeline level o' = ⟨[], 0, 0⟩ := by
    intro o'
    simp [runPipeline, h1, h2, h3]
  refine ⟨hp o, ?_⟩
  have hid : ∀ (st : GState) (t : String),
      processTarget level oracleOf putO putEnabled st t = st := by
    intro st t
    unfold processTarget
    rw [hp (oracleOf t)]
    rfl
  have hfold : ∀ (l : List String) (st : GState),
      l.foldl (processTarget level oracleOf putO putEnabled) st = st := by
    intro l
    induction l with
    | nil => intro st; rfl
    | cons t ts ih =>
      intro st
      rw [List.foldl_cons, hid, ih]
  exact hfold targets ⟨[], []⟩

/-- Claim C10 (witness): concrete instantiation at level 5. -/
theorem out_of_range_level_inert_witness :
    runPipeline (some 5) demoOracle = ⟨[], 0, 0⟩
    ∧ runRun (some 5) demoOracleOf demoPutO false ["http://t1"] = ⟨[], []⟩ :=
  out_of_range_level_inert (some 5) demoOracle demoOracleOf demoPutO false
    ["http://t1"] (by decide) (by decide) (by decide)

/- ===== Lemmas on dedupFirst and insertSet ===== -/

theorem dedupFirst_nodup {α : Type} [DecidableEq α] (l : List α) :
    (dedupFirst l).Nodup := by
  induction l with
  | nil => exact List.nodup_nil
  | cons x xs ih =>
    simp only [dedupFirst]
    refine List.nodup_cons.mpr ⟨?_, ?_⟩
    · intro hmem
      have h2 := (List.mem_filter.mp hmem).2
      simp at h2
    · exact ih.filter _

theorem mem_dedupFirst {α : Type} [DecidableEq α] (l : List α) (a : α) :
    a ∈ dedupFirst l ↔ a ∈ l := by
  induction l with
  | nil => simp [dedupFirst]
  | cons x xs ih =>
    simp only [dedupFirst]
    constructor
    · intro h
      rcases List.mem_cons.mp h with h' | h'
      · exact h' ▸ List.mem_cons_self _ _
      · exact List.mem_cons_of_mem _ (ih.mp (List.mem_filter.mp h').1)
    · intro h
      rcases List.mem_cons.mp h with h' | h'
      · exact h' ▸ List.mem_cons_self _ _
      · by_cases hax : a = x
        · subst hax; exact List.mem_cons_self _ _
        · refine List.mem_cons_of_mem _ (List.mem_filter.mpr ⟨ih.mpr h', ?_⟩)
          simp [hax]

theorem mem_insertSet (s : List String) (a b : String) :
    a ∈ insertSet s b ↔ a ∈ s ∨ a = b := by
  unfold insertSet
  split_ifs with h
  · constructor
    · exact Or.inl
    · rintro (h' | rfl)
      · exact h'
      · exact h
  · simp [List.mem_append]

theorem insertSet_nodup (s : List String) (b : String) (h : s.Nodup) :
    (insertSet s b).Nodup := by
  unfold insertSet
  split_ifs with hb
  · exact h
  · rw [List.nodup_append]
    refine ⟨h, List.nodup_singleton b, ?_⟩
    intro a ha hb'
    rw [List.mem_singleton] at hb'
    subst hb'
    exact hb ha

theorem length_insertSet (s : List String) (b : String) :
    (insertSet s b).length = if b ∈ s then s.length else s.length + 1 := by
  unfold insertSet
  split_ifs <;> simp

theorem mem_foldl_insertSet (l : List String) :
    ∀ (s : List String) (a : String),
      a ∈ l.foldl insertSet s ↔ a ∈ s ∨ a ∈ l := by
  induction l with
  | nil =>
    intro s a
    simp
  | cons x xs ih =>
    intro s a
    rw [List.foldl_cons, ih, mem_insertSet]
    simp only [List.mem_cons]
    tauto

theorem nodup_foldl_insertSet (l : List String) :
    ∀ s : List String, s.Nodup → (l.foldl insertSet s).Nodup := by
  induction l with
  | nil => intro s h; exact h
  | cons x xs ih =>
    intro s h
    rw [List.foldl_cons]
    exact ih _ (insertSet_nodup s x h)

theorem length_foldl_insertSet_le (l : List String) :
    ∀ s : List String, (l.foldl insertSet s).length ≤ s.length + l.length := by
  induction l with
  | nil => intro s; simp
  | cons x xs ih =>
    intro s
    rw [List.foldl_cons]
    have h1 := ih (insertSet s x)
    have h2 := length_insertSet s x
    rw [List.length_cons]
    by_cases hx : x ∈ s
    · rw [if_pos hx] at h2
      omega
    · rw [if_neg hx] at h2
      omega

theorem length_foldl_insertSet_eq (l : List String) :
    ∀ s : List String,
      ((l.foldl insertSet s).length = s.length + l.length
        ↔ l.Nodup ∧ ∀ x ∈ l, x ∉ s) := by
  induction l with
  | nil => intro s; simp
  | cons x xs ih =>
    intro s
    rw [List.foldl_cons]
    by_cases hx : x ∈ s
    · have hins : insertSet s x = s := by
        unfold insertSet
        rw [if_pos hx]
      rw [hins]
      constructor
      · intro h
        exfalso
        have hle := length_foldl_insertSet_le xs s
        rw [List.length_cons] at h
        omega
      · rintro ⟨hnd, hall⟩
        exact absurd hx (hall x (List.mem_cons_self x xs))
    · have hins : insertSet s x = s ++ [x] := by
        unfold insertSet
        rw [if_neg hx]
      rw [hins]
      have harith : s.length + (x :: xs).length = (s ++ [x]).length + xs.length := by
        simp [List.length_append, List.length_cons]
        omega
      rw [harith, ih (s ++ [x])]
      constructor
      · rintro ⟨hnd, hall⟩
        have hxall : ∀ y ∈ xs, y ∉ s ∧ y ≠ x := by
          intro y hy
          have h' := hall y hy
          simp [List.mem_append] at h'
          exact h'
        have hxnot : x ∉ xs := fun hmem => (hxall x hmem).2 rfl
        refine ⟨List.nodup_cons.mpr ⟨hxnot, hnd⟩, ?_⟩
        intro y hy
        rcases List.mem_cons.mp hy with h' | h'
        · subst h'; exact hx
        · exact (hxall y h').1
      · rintro ⟨hnd, hall⟩
        obtain ⟨hxnot, hnd'⟩ := List.nodup_cons.mp hnd
        refine ⟨hnd', ?_⟩
        intro y hy
        simp only [List.mem_append, List.mem_singleton]
        intro hcon
        rcases hcon with h' | h'
        · exact hall y (List.mem_cons_of_mem x hy) h'
        · subst h'
          exact hxnot hy

/- ===== Lemmas on the aggregation loop ===== -/

theorem processBucket_allBuckets (putO : String → FetchOutcome) (pe : Bool)
    (t : String) (st : GState) (b : String) :
    (processBucket putO pe t st b).allBuckets = insertSet st.allBuckets b := by
  unfold processBucket
  split_ifs <;> rfl

theorem processBucket_records (putO : String → FetchOutcome) (pe : Bool)
    (t : String) (st : GState) (b : String) :
    ∃ ps pb, (processBucket putO pe t st b).records
      = st.records ++ [⟨t, b, ps, pb⟩] := by
  unfold processBucket
  split_ifs
  · exact ⟨_, _, rfl⟩
  · exact ⟨_, _, rfl⟩

theorem foldl_processBucket_allBuckets (putO : String → FetchOutcome)
    (pe : Bool) (t : String) (bs : List String) :
    ∀ st : GState,
      (bs.foldl (processBucket putO pe t) st).allBuckets
        = bs.foldl insertSet st.allBuckets := by
  induction bs with
  | nil => intro st; rfl
  | cons b bs ih =>
    intro st
    rw [List.foldl_cons, List.foldl_cons, ih, processBucket_allBuckets]

theorem processTarget_allBuckets (level : Option Int)
    (oracleOf : String → TargetOracle) (putO : String → FetchOutcome)
    (pe : Bool) (st : GState) (t : String) :
    (processTarget level oracleOf putO pe st t).allBuckets
      = ((runPipeline level (oracleOf t)).buckets).foldl insertSet st.allBuckets := by
  unfold processTarget
  exact foldl_processBucket_allBuckets putO pe t _ st

theorem runRun_allBuckets_aux (level : Option Int)
    (oracleOf : String → TargetOracle) (putO : String → FetchOutcome)
    (pe : Bool) (targets : List String) :
    ∀ st : GState,
      (targets.foldl (processTarget level oracleOf putO pe) st).allBuckets
        = ((targets.map (fun t => (runPipeline level (oracleOf t)).buckets)).flatten).foldl
            insertSet st.allBuckets := by
  induction targets with
  | nil => intro st; rfl
  | cons t ts ih =>
    intro st
    rw [List.foldl_cons, ih, List.map_cons, List.flatten_cons, List.foldl_append,
        processTarget_allBuckets]

theorem processBucket_records_inv (putO : String → FetchOutcome) (pe : Bool)
    (t : String) (st : GState) (b : String)
    (h : ∀ r ∈ st.records, r.bucket ∈ st.allBuckets) :
    ∀ r ∈ (processBucket putO pe t st b).records,
      r.bucket ∈ (processBucket putO pe t st b).allBuckets := by
  intro r hr
  obtain ⟨ps, pb, hrec⟩ := processBucket_records putO pe t st b
  rw [hrec] at hr
  rw [processBucket_allBuckets]
  rcases List.mem_append.mp hr with h' | h'
  · exact (mem_insertSet _ _ _).mpr (Or.inl (h r h'))
  · have heq : r = ⟨t, b, ps, pb⟩ := List.mem_singleton.mp h'
    subst heq
    exact (mem_insertSet _ _ _).mpr (Or.inr rfl)

theorem foldl_processBucket_records_inv (putO : String → FetchOutcome)
    (pe : Bool) (t : String) (bs : List String) :
    ∀ st : GState,
      (∀ r ∈ st.records, r.bucket ∈ st.allBuckets) →
      ∀ r ∈ (bs.foldl (processBucket putO pe t) st).records,
        r.bucket ∈ (bs.foldl (processBucket putO pe t) st).allBuckets := by
  induction bs with
  | nil => intro st h; exact h
  | cons b bs ih =>
    intro st h
    rw [List.foldl_cons]
    exact ih _ (processBucket_records_inv putO pe t st b h)

theorem runRun_records_inv (level : Option Int)
    (oracleOf : String → TargetOracle) (putO : String → FetchOutcome)
    (pe : Bool) (targets : List String) :
    ∀ st : GState,
      (∀ r ∈ st.records, r.bucket ∈ st.allBuckets) →
      ∀ r ∈ (targets.foldl (processTarget level oracleOf putO pe) st).records,
        r.bucket ∈ (targets.foldl (processTarget level oracleOf putO pe) st).allBuckets := by
  induction targets with
  | nil => intro st h; exact h
  | cons t ts ih =>
    intro st h
    rw [List.foldl_cons]
    exact ih _ (foldl_processBucket_records_inv putO pe t _ st h)

theorem runPipeline_buckets_nodup (level : Option Int) (o : TargetOracle) :
    ((runPipeline level o).buckets).Nodup := by
  rcases level with _ | n
  · simp [runPipeline]
  · rcases eq_or_ne n 1 with h1 | h1
    · subst h1
      simp only [runPipeline]
      simp only [reduceIte]
      exact dedupFirst_nodup _
    · rcases eq_or_ne n 2 with h2 | h2
      · subst h2
        by_cases hE : (extractBuckets o.fetchBody).isEmpty
        · simp only [runPipeline]
          simp [hE]
          exact dedupFirst_nodup _
        · simp only [runPipeline]
          simp [hE]
          exact dedupFirst_nodup _
      · rcases eq_or_ne n 3 with h3 | h3
        · subst h3
          simp only [runPipeline]
          simp
          exact dedupFirst_nodup _
        · simp [runPipeline, h1, h2, h3]

/-- Claim C9: at end of run the global bucket set equals the union over all
targets of that target's discovered bucket set; duplicate insertion is a
no-op, so the set is duplicate-free and its size is at most the sum of
per-target discovered counts, with equality iff no bucket repeats across
targets (the per-target lists are themselves duplicate-free, so repetition
can only be across targets); and every record's bucket is a member of the
global bucket set. -/
theorem global_bucket_aggregation (level : Option Int)
    (oracleOf : String → TargetOracle) (putO : String → FetchOutcome)
    (pe : Bool) (targets : List String) :
    (∀ b, b ∈ (runRun level oracleOf putO pe targets).allBuckets
        ↔ ∃ t, t ∈ targets ∧ b ∈ (runPipeline level (oracleOf t)).buckets)
    ∧ (runRun level oracleOf putO pe targets).allBuckets.Nodup
    ∧ (runRun level oracleOf putO pe targets).allBuckets.length
        ≤ (targets.map (fun t => ((runPipeline level (oracleOf t)).buckets).length)).sum
    ∧ ((runRun level oracleOf putO pe targets).allBuckets.length
          = (targets.map (fun t => ((runPipeline level (oracleOf t)).buckets).length)).sum
        ↔ ((targets.map (fun t => (runPipeline level (oracleOf t)).buckets)).flatten).Nodup)
    ∧ (∀ t, ((runPipeline level (oracleOf t)).buckets).Nodup)
    ∧ (∀ r ∈ (runRun level oracleOf putO pe targets).records,
        r.bucket ∈ (runRun level oracleOf putO pe targets).allBuckets) := by
  have hAB : (runRun level oracleOf putO pe targets).allBuckets
      = ((targets.map (fun t => (runPipeline level (oracleOf t)).buckets)).flatten).foldl
          insertSet [] := by
    unfold runRun
    exact runRun_allBuckets_aux level oracleOf putO pe targets ⟨[], []⟩
  have hsum : ((targets.map (fun t => (runPipeline level (oracleOf t)).buckets)).flatten).length
      = (targets.map (fun t => ((runPipeline level (oracleOf t)).buckets).length)).sum := by
    rw [List.length_flatten, List.map_map]
    rfl
  refine ⟨?_, ?_, ?_, ?_, ?_, ?_⟩
  · intro b
    rw [hAB, mem_foldl_insertSet]
    constructor
    · rintro (h | h)
      · exact absurd h (List.not_mem_nil b)
      · rcases List.mem_flatten.mp h with ⟨l, hl, hbl⟩
        rcases List.mem_map.mp hl with ⟨t, ht, rfl⟩
        exact ⟨t, ht, hbl⟩
    · rintro ⟨t, ht, hbt⟩
      right
      exact List.mem_flatten.mpr ⟨_, List.mem_map.mpr ⟨t, ht, rfl⟩, hbt⟩
  · rw [hAB]
    exact nodup_foldl_insertSet _ [] List.nodup_nil
  · rw [hAB, ← hsum]
    simpa using length_foldl_insertSet_le
      ((targets.map (fun t => (runPipeline level (oracleOf t)).buckets)).flatten) []
  · rw [hAB, ← hsum]
    have heq := length_foldl_insertSet_eq
      ((targets.map (fun t => (runPipeline level (oracleOf t)).buckets)).flatten) []
    simp only [List.length_nil, Nat.zero_add, List.not_mem_nil, not_false_iff,
      implies_true, and_true] at heq
    exact heq
  · intro t
    exact runPipeline_buckets_nodup level (oracleOf t)
  · exact runRun_records_inv level oracleOf putO pe targets ⟨[], []⟩
      (by intro r hr; exact absurd hr (List.not_mem_nil r))

/-- Claim C9 (witness): the single record produced by a one-target run has
its bucket in the global set. -/
theorem global_bucket_aggregation_witness :
    "http://a.oss-x.aliyuncs.com"
      ∈ (runRun (some 1) demoOracleOf demoPutO false ["http://t1"]).allBuckets :=
  (global_bucket_aggregation (some 1) demoOracleOf demoPutO false
      ["http://t1"]).2.2.2.2.2
    ⟨"http://t1", "http://a.oss-x.aliyuncs.com", "", false⟩ (by decide)

/- ===== Lemmas on the browser machine ===== -/

theorem setCaller_eq_cases (cs : Nat → GBPc) (i : Nat) (pc : GBPc) (a : Nat)
    (q : GBPc) :
    setCaller cs i pc a = q ↔ (a = i ∧ pc = q) ∨ (a ≠ i ∧ cs a = q) := by
  by_cases h : a = i
  · subst h; simp [setCaller]
  · simp [setCaller, h]

theorem setCaller_not_launching (cs : Nat → GBPc) (i : Nat) (pc : GBPc)
    (hpc : pc ≠ GBPc.launching) (hall : ∀ a, cs a ≠ GBPc.launching) :
    ∀ a, setCaller cs i pc a ≠ GBPc.launching := by
  intro a hcon
  rcases (setCaller_eq_cases cs i pc a GBPc.launching).mp hcon with ⟨_, h'⟩ | ⟨_, h'⟩
  · exact hpc h'
  · exact hall a h'

theorem launchInv_init : LaunchInv browserInit := by
  constructor
  · intro i j hi _
    exact absurd hi (by simp [browserInit])
  · intro i hi
    exact absurd hi (by simp [browserInit])

theorem launchInv_step (oracle : Nat → Option Nat) (st : BrowserState) (i : Nat)
    (h : LaunchInv st) : LaunchInv (browserStep oracle st i) := by
  obtain ⟨huniq, hrun⟩ := h
  unfold browserStep
  cases hpc : st.callers i with
  | start =>
    cases hbr : st.browser with
    | some b =>
      constructor
      · intro a c ha hc
        rcases (setCaller_eq_cases _ _ _ _ _).mp ha with ⟨_, h'⟩ | ⟨_, ha'⟩
        · exact absurd h' (by simp)
        · rcases (setCaller_eq_cases _ _ _ _ _).mp hc with ⟨_, h'⟩ | ⟨_, hc'⟩
          · exact absurd h' (by simp)
          · exact huniq a c ha' hc'
      · intro a ha
        rcases (setCaller_eq_cases _ _ _ _ _).mp ha with ⟨_, h'⟩ | ⟨_, ha'⟩
        · exact absurd h' (by simp)
        · have h2 := hrun a ha'
          rw [hbr] at h2
          exact absurd h2.1 (by simp)
    | none =>
      split_ifs with hfl
      · constructor
        · intro a c ha hc
          rcases (setCaller_eq_cases _ _ _ _ _).mp ha with ⟨_, h'⟩ | ⟨_, ha'⟩
          · exact absurd h' (by simp)
          · rcases (setCaller_eq_cases _ _ _ _ _).mp hc with ⟨_, h'⟩ | ⟨_, hc'⟩
            · exact absurd h' (by simp)
            · exact huniq a c ha' hc'
        · intro a ha
          rcases (setCaller_eq_cases _ _ _ _ _).mp ha with ⟨_, h'⟩ | ⟨_, ha'⟩
          · exact absurd h' (by simp)
          · exact ⟨rfl, hfl⟩
      · have hnol : ∀ a, st.callers a ≠ GBPc.launching := by
          intro a ha
          exact hfl (hrun a ha).2
        constructor
        · intro a c ha hc
          rcases (setCaller_eq_cases _ _ _ _ _).mp ha with ⟨hai, _⟩ | ⟨_, ha'⟩
          · rcases (setCaller_eq_cases _ _ _ _ _).mp hc with ⟨hci, _⟩ | ⟨_, hc'⟩
            · rw [hai, hci]
            · exact absurd hc' (hnol c)
          · exact absurd ha' (hnol a)
        · intro a ha
          exact ⟨rfl, rfl⟩
  | waitLoop =>
    split_ifs with hfl
    · exact ⟨huniq, hrun⟩
    · constructor
      · intro a c ha hc
        rcases (setCaller_eq_cases _ _ _ _ _).mp ha with ⟨_, h'⟩ | ⟨_, ha'⟩
        · exact absurd h' (by simp)
        · rcases (setCaller_eq_cases _ _ _ _ _).mp hc with ⟨_, h'⟩ | ⟨_, hc'⟩
          · exact absurd h' (by simp)
          · exact huniq a c ha' hc'
      · intro a ha
        rcases (setCaller_eq_cases _ _ _ _ _).mp ha with ⟨_, h'⟩ | ⟨_, ha'⟩
        · exact absurd h' (by simp)
        · exact absurd (hrun a ha').2 hfl
  | launching =>
    constructor
    · intro a c ha hc
      rcases (setCaller_eq_cases _ _ _ _ _).mp ha with ⟨_, h'⟩ | ⟨hai, ha'⟩
      · exact absurd h' (by simp)
      · exact absurd (huniq a i ha' hpc) hai
    · intro a ha
      rcases (setCaller_eq_cases _ _ _ _ _).mp ha with ⟨_, h'⟩ | ⟨hai, ha'⟩
      · exact absurd h' (by simp)
      · exact absurd (huniq a i ha' hpc) hai
  | done r => exact ⟨huniq, hrun⟩

theorem browser_mono_step (oracle : Nat → Option Nat) (st : BrowserState)
    (i : Nat) (b : Nat) (hI : LaunchInv st) (hb : st.browser = some b) :
    (browserStep oracle st i).browser = some b := by
  obtain ⟨huniq, hrun⟩ := hI
  unfold browserStep
  cases hpc : st.callers i with
  | start =>
    rw [hb]
  | waitLoop =>
    split_ifs with hfl
    · exact hb
    · exact hb
  | launching =>
    exfalso
    have h2 := (hrun i hpc).1
    rw [h2] at hb
    exact absurd hb (by simp)
  | done r => exact hb

theorem launchInv_fold (oracle : Nat → Option Nat) (acts : List Nat) :
    ∀ st, LaunchInv st → LaunchInv (acts.foldl (browserStep oracle) st) := by
  induction acts with
  | nil => intro st h; exact h
  | cons a as ih =>
    intro st h
    exact ih _ (launchInv_step oracle st a h)

theorem launchInv_run (oracle : Nat → Option Nat) (acts : List Nat) :
    LaunchInv (browserRun oracle acts) :=
  launchInv_fold oracle acts browserInit launchInv_init

theorem browser_mono_fold (oracle : Nat → Option Nat) (more : List Nat) :
    ∀ (st : BrowserState) (b : Nat), LaunchInv st → st.browser = some b →
      (more.foldl (browserStep oracle) st).browser = some b := by
  induction more with
  | nil => intro st b _ hb; exact hb
  | cons a as ih =>
    intro st b hI hb
    exact ih _ b (launchInv_step oracle st a hI)
      (browser_mono_step oracle st a b hI hb)

theorem succInv_init : SuccInv browserInit := by
  refine ⟨launchInv_init, by simp [browserInit], ?_, ?_⟩
  · intro _
    refine ⟨rfl, rfl, ?_⟩
    intro a ha
    exact absurd ha (by simp [browserInit])
  · intro h
    exact absurd h (by simp [browserInit])

theorem succInv_step (oracle : Nat → Option Nat)
    (hsucc : ∀ k, (oracle k).isSome = true) (st : BrowserState) (i : Nat)
    (h : SuccInv st) : SuccInv (browserStep oracle st i) := by
  obtain ⟨hLI, hle, h0, h1⟩ := h
  refine ⟨launchInv_step oracle st i hLI, ?_⟩
  obtain ⟨huniq, hrun⟩ := hLI
  unfold browserStep
  cases hpc : st.callers i with
  | start =>
    cases hbr : st.browser with
    | some b =>
      refine ⟨hle, ?_, ?_⟩
      · intro hc0
        obtain ⟨hb0, _, _⟩ := h0 hc0
        rw [hbr] at hb0
        exact absurd hb0 (by simp)
      · intro _
        exact Or.inr rfl
    | none =>
      split_ifs with hfl
      · refine ⟨hle, ?_, ?_⟩
        · intro hc0
          obtain ⟨hb0, hf0, hl0⟩ := h0 hc0
          rw [hfl] at hf0
          exact absurd hf0 (by simp)
        · intro hc1
          exact Or.inl hfl
      · have hc0 : st.launchCount = 0 := by
          by_cases hc1 : st.launchCount = 1
          · exfalso
            rcases h1 hc1 with hf | hbs
            · exact hfl hf
            · rw [hbr] at hbs
              exact absurd hbs (by simp)
          · omega
        refine ⟨?_, ?_, ?_⟩
        · show st.launchCount + 1 ≤ 1
          omega
        · intro hcon
          exfalso
          have hcon' : st.launchCount + 1 = 0 := hcon
          omega
        · intro _
          exact Or.inl rfl
  | waitLoop =>
    split_ifs with hfl
    · exact ⟨hle, h0, h1⟩
    · refine ⟨hle, ?_, ?_⟩
      · intro hc0
        obtain ⟨hb0, hf0, hl0⟩ := h0 hc0
        refine ⟨hb0, hf0, ?_⟩
        exact setCaller_not_launching _ _ _ (by simp) hl0
      · intro hc1
        rcases h1 hc1 with hf | hbs
        · exact absurd hf hfl
        · exact Or.inr hbs
  | launching =>
    have hc1 : st.launchCount = 1 := by
      by_cases hc0 : st.launchCount = 0
      · exact absurd hpc ((h0 hc0).2.2 i)
      · omega
    have hnb : ∃ hdl, oracle (st.launchCount - 1) = some hdl := by
      have hs := hsucc (st.launchCount - 1)
      cases hor : oracle (st.launchCount - 1) with
      | some x => exact ⟨x, rfl⟩
      | none =>
        rw [hor] at hs
        exact absurd hs (by simp)
    obtain ⟨hdl, hor⟩ := hnb
    simp only [hor]
    refine ⟨hle, ?_, ?_⟩
    · intro hcon
      exfalso
      have hcon' : st.launchCount = 0 := hcon
      omega
    · intro _
      exact Or.inr rfl
  | done r => exact ⟨hle, h0, h1⟩

theorem succInv_run (oracle : Nat → Option Nat)
    (hsucc : ∀ k, (oracle k).isSome = true) (acts : List Nat) :
    SuccInv (browserRun oracle acts) := by
  have hfold : ∀ st, SuccInv st → SuccInv (acts.foldl (browserStep oracle) st) := by
    induction acts with
    | nil => intro st h; exact h
    | cons a as ih =>
      intro st h
      exact ih _ (succInv_step oracle hsucc st a h)
  exact hfold browserInit succInv_init

theorem failInv_step (oracle : Nat → Option Nat) (hfail : ∀ k, oracle k = none)
    (st : BrowserState) (i : Nat) (h : FailInv st) :
    FailInv (browserStep oracle st i) := by
  obtain ⟨hb, hdone⟩ := h
  unfold browserStep
  cases hpc : st.callers i with
  | start =>
    rw [hb]
    split_ifs with hfl
    · refine ⟨rfl, ?_⟩
      intro a res ha
      rcases (setCaller_eq_cases _ _ _ _ _).mp ha with ⟨_, h'⟩ | ⟨_, ha'⟩
      · exact absurd h' (by simp)
      · exact hdone a res ha'
    · refine ⟨rfl, ?_⟩
      intro a res ha
      rcases (setCaller_eq_cases _ _ _ _ _).mp ha with ⟨_, h'⟩ | ⟨_, ha'⟩
      · exact absurd h' (by simp)
      · exact hdone a res ha'
  | waitLoop =>
    split_ifs with hfl
    · exact ⟨hb, hdone⟩
    · refine ⟨hb, ?_⟩
      intro a res ha
      rcases (setCaller_eq_cases _ _ _ _ _).mp ha with ⟨_, h'⟩ | ⟨_, ha'⟩
      · injection h' with h''
        rw [← h'', hb]
      · exact hdone a res ha'
  | launching =>
    rw [hfail (st.launchCount - 1), hb]
    refine ⟨rfl, ?_⟩
    intro a res ha
    rcases (setCaller_eq_cases _ _ _ _ _).mp ha with ⟨_, h'⟩ | ⟨_, ha'⟩
    · injection h' with h''
      exact h''.symm
    · exact hdone a res ha'
  | done r => exact ⟨hb, hdone⟩

theorem failInv_run (oracle : Nat → Option Nat) (hfail : ∀ k, oracle k = none)
    (acts : List Nat) : FailInv (browserRun oracle acts) := by
  have hinit : FailInv browserInit := by
    refine ⟨rfl, ?_⟩
    intro a res ha
    exact absurd ha (by simp [browserInit])
  have hfold : ∀ st, FailInv st → FailInv (acts.foldl (browserStep oracle) st) := by
    induction acts with
    | nil => intro st h; exact h
    | cons a as ih =>
      intro st h
      exact ih _ (failInv_step oracle hfail st a h)
  exact hfold browserInit hinit

/-- Claim C6 (counterexample): the launch guard is not once-per-process.
With an oracle whose first launch attempt fails and a schedule where caller
0 starts a launch, the launch fails (`browserLaunching` is reset to `false`
with `browser` still null), and caller 1 then enters `getBrowser`: caller 1
initiates a second launch, so two launches are performed in one process. -/
theorem browser_two_launches_after_failure :
    (browserRun oracleFlaky [0, 0, 1]).launchCount = 2 := by decide

/-- Claim C6 (amended): as long as launch attempts succeed, the browser is
launched at most once across every interleaving of concurrent callers
(callers arriving during the pending launch wait on the flag instead of
launching); and for every oracle, once the shared handle is set it is never
reassigned by any further steps.  A failed attempt, however, leaves the
guard open, so a later caller may launch again (see the counterexample). -/
theorem browser_launch_once_on_success (oracle : Nat → Option Nat)
    (acts more : List Nat) :
    ((∀ k, (oracle k).isSome = true) → (browserRun oracle acts).launchCount ≤ 1)
    ∧ (∀ b, (browserRun oracle acts).browser = some b →
        (browserRun oracle (acts ++ more)).browser = some b) := by
  constructor
  · intro hsucc
    exact (succInv_run oracle hsucc acts).2.1
  · intro b hb
    unfold browserRun
    rw [List.foldl_append]
    exact browser_mono_fold oracle more _ b (launchInv_run oracle acts) hb

/-- Claim C6 (witness): a concrete all-success interleaving of two callers
(the second waits out the first's launch), then one more step. -/
theorem browser_launch_once_on_success_witness :
    (browserRun demoOracleS [0, 1, 0, 1]).launchCount ≤ 1
    ∧ (browserRun demoOracleS ([0, 1, 0, 1] ++ [2])).browser = some 5 :=
  ⟨(browser_launch_once_on_success demoOracleS [0, 1, 0, 1] [2]).1 (fun _ => rfl),
   (browser_launch_once_on_success demoOracleS [0, 1, 0, 1] [2]).2 5 (by decide)⟩

/-- Claim C7 (counterexample): launch failure is not latched.  With an
always-failing oracle, after caller 0's launch attempt has failed
(one launch so far), the later render call of caller 1 performs a second
launch attempt — contradicting "after one failed launch attempt, no later
render call performs or retries a browser launch". -/
theorem browser_retries_launch_after_failure :
    (browserRun oracleFail [0, 0]).launchCount = 1
    ∧ (browserRun oracleFail [0, 0, 1]).launchCount = 2 :=
  ⟨by decide, by decide⟩

/-- Claim C7 (amended): if every launch attempt fails, then under every
interleaving the shared handle stays null, every completed `getBrowser`
call returned null, and hence every render call returns an empty result set
(`fetchRendered` with a null browser returns `[]` without crashing).  The
failure is not latched: each later call that finds no browser retries the
launch (see the counterexample). -/
theorem launch_failure_degraded (oracle : Nat → Option Nat) (acts : List Nat)
    (i : Nat) (res : Option Nat)
    (hfail : ∀ k, oracle k = none)
    (hdone : (browserRun oracle acts).callers i = GBPc.done res) :
    res = none ∧ (browserRun oracle acts).browser = none
    ∧ ∀ scr, (fetchRendered res scr).buckets = [] := by
  have h := failInv_run oracle hfail acts
  have hres : res = none := h.2 i res hdone
  refine ⟨hres, h.1, ?_⟩
  intro scr
  rw [hres]
  rfl

/-- Claim C7 (witness): caller 0 launches, the attempt fails, and its
completed call returned null, so its render yields no buckets. -/
theorem launch_failure_degraded_witness :
    (none : Option Nat) = none
    ∧ (browserRun oracleFail [0, 0]).browser = none
    ∧ ∀ scr, (fetchRendered (none : Option Nat) scr).buckets = [] :=
  launch_failure_degraded oracleFail [0, 0] 0 none (fun _ => rfl) (by decide)

/- ===== Lemmas on the scanner ===== -/

theorem takeWhileCount_le_length (p : Char → Bool) :
    ∀ l : List Char, takeWhileCount p l ≤ l.length := by
  intro l
  induction l with
  | nil => simp [takeWhileCount]
  | cons c cs ih =>
    simp only [takeWhileCount, List.length_cons]
    split_ifs
    · omega
    · omega

theorem all_take_of_le_takeWhileCount (p : Char → Bool) :
    ∀ (l : List Char) (k : Nat), k ≤ takeWhileCount p l →
      (l.take k).all p = true := by
  intro l
  induction l with
  | nil =>
    intro k hk
    simp [takeWhileCount] at hk
    subst hk
    rfl
  | cons c cs ih =>
    intro k hk
    simp only [takeWhileCount] at hk
    split_ifs at hk with hpc
    · cases k with
      | zero => rfl
      | succ k' =>
        rw [List.take_succ_cons, List.all_cons, hpc, Bool.true_and]
        exact ih k' (by omega)
    · have hk0 : k = 0 := by omega
      subst hk0
      rfl

theorem suffixMatch_spec {l : List Char} {j : Nat} (h : suffixMatch l = some j) :
    ∃ r, 0 < r ∧ j = 5 + r + 13
      ∧ l.take 5 = ".oss-".toList
      ∧ ((l.drop 5).take r).all isRegionChar = true
      ∧ ((l.drop 5).take r).length = r
      ∧ ((l.drop 5).drop r).take 13 = ".aliyuncs.com".toList := by
  simp only [suffixMatch] at h
  split_ifs at h with h5 hr hali
  refine ⟨takeWhileCount isRegionChar (l.drop 5), ?_, ?_, h5, ?_, ?_, hali⟩
  · exact Nat.pos_of_ne_zero hr
  · exact (Option.some.inj h).symm
  · exact all_take_of_le_takeWhileCount isRegionChar (l.drop 5) _ le_rfl
  · rw [List.length_take]
    exact Nat.min_eq_left (takeWhileCount_le_length _ _)

theorem findHost_spec (rest : List Char) :
    ∀ (k0 m : Nat), findHost rest k0 = some m →
      ∃ k j, 0 < k ∧ k ≤ k0 ∧ suffixMatch (rest.drop k) = some j ∧ m = k + j := by
  intro k0
  induction k0 with
  | zero =>
    intro m h
    exact absurd h (by simp [findHost])
  | succ k ih =>
    intro m h
    unfold findHost at h
    cases hs : suffixMatch (rest.drop (k + 1)) with
    | some j =>
      rw [hs] at h
      injection h with hm
      exact ⟨k + 1, j, Nat.succ_pos k, le_refl _, hs, hm.symm⟩
    | none =>
      rw [hs] at h
      obtain ⟨k', j, hk0, hkle, hsuf, hm⟩ := ih m h
      exact ⟨k', j, hk0, Nat.le_succ_of_le hkle, hsuf, hm⟩

theorem hostTail_decomp (rest : List Char) (m : Nat)
    (hfind : findHost rest (takeWhileCount isHostChar rest) = some m) :
    ∃ host region,
      host ≠ [] ∧ host.all isHostChar = true
      ∧ region ≠ [] ∧ region.all isRegionChar = true
      ∧ rest.take m
          = host ++ ".oss-".toList ++ region ++ ".aliyuncs.com".toList := by
  obtain ⟨k, j, hkpos, hkle, hsuf, hm⟩ := findHost_spec rest _ m hfind
  obtain ⟨r, hr0, hj, hoss, hregall, hreglen, hali⟩ := suffixMatch_spec hsuf
  have hklen : k ≤ rest.length := le_trans hkle (takeWhileCount_le_length _ _)
  refine ⟨rest.take k, ((rest.drop k).drop 5).take r, ?_, ?_, ?_, hregall, ?_⟩
  · have htl : (rest.take k).length = k := by
      rw [List.length_take]
      exact Nat.min_eq_left hklen
    intro hcon
    rw [hcon] at htl
    simp at htl
    omega
  · exact all_take_of_le_takeWhileCount isHostChar rest k hkle
  · intro hcon
    rw [hcon] at hreglen
    simp at hreglen
    omega
  · have hm' : m = k + (5 + (r + 13)) := by omega
    rw [hm', List.take_add, List.take_add, List.take_add, hoss, hali]
    simp [List.append_assoc]

theorem matchLen_spec {l : List Char} {n : Nat} (h : matchLen l = some n) :
    MatchesPattern (l.take n) := by
  unfold matchLen at h
  split_ifs at h with h8 h7
  · rcases Option.map_eq_some'.mp h with ⟨m, hfind, hn⟩
    obtain ⟨host, region, hh1, hh2, hr1, hr2, hdec⟩ :=
      hostTail_decomp (l.drop 8) m hfind
    refine ⟨"https://".toList, host, region, Or.inr rfl, hh1, hh2, hr1, hr2, ?_⟩
    subst hn
    rw [List.take_add, h8, hdec]
    simp [List.append_assoc]
  · rcases Option.map_eq_some'.mp h with ⟨m, hfind, hn⟩
    obtain ⟨host, region, hh1, hh2, hr1, hr2, hdec⟩ :=
      hostTail_decomp (l.drop 7) m hfind
    refine ⟨"http://".toList, host, region, Or.inl rfl, hh1, hh2, hr1, hr2, ?_⟩
    subst hn
    rw [List.take_add, h7, hdec]
    simp [List.append_assoc]

theorem mem_scanAux :
    ∀ (fuel : Nat) (l m : List Char), m ∈ scanAux fuel l →
      ∃ l₁ n, l₁ <:+ l ∧ matchLen l₁ = some n ∧ m = l₁.take n := by
  intro fuel
  induction fuel with
  | zero =>
    intro l m h
    exact absurd h (by simp [scanAux])
  | succ fuel ih =>
    intro l m h
    cases l with
    | nil => exact absurd h (by simp [scanAux])
    | cons c cs =>
      simp only [scanAux] at h
      cases hm : matchLen (c :: cs) with
      | some n =>
        rw [hm] at h
        rcases List.mem_cons.mp h with h' | h'
        · exact ⟨c :: cs, n, List.suffix_refl _, hm, h'⟩
        · obtain ⟨l₁, n', hsuf, hml, hm'⟩ := ih _ _ h'
          exact ⟨l₁, n', hsuf.trans (List.drop_suffix _ _), hml, hm'⟩
      | none =>
        rw [hm] at h
        obtain ⟨l₁, n', hsuf, hml, hm'⟩ := ih _ _ h
        exact ⟨l₁, n', hsuf.trans (List.suffix_cons c cs), hml, hm'⟩

/-- Claim C3 (counterexample): the output is not the set of ALL distinct
pattern words occurring in the text.  In
`http://a.oss-x.aliyuncs.com.oss-y.aliyuncs.com` the shorter pattern word
`http://a.oss-x.aliyuncs.com` occurs (as a prefix), but the greedy scan
matches the whole longer word, so the shorter one is absent from
`extractBuckets`'s output. -/
theorem extractBuckets_misses_overlapped_match :
    MatchesPattern exSubC3.toList
    ∧ exSubC3.toList <+: exTextC3.toList
    ∧ exSubC3 ∉ extractBuckets exTextC3
    ∧ extractBuckets exTextC3 = [exTextC3] := by
  refine ⟨?_, ?_, ?_, ?_⟩
  · exact ⟨"http://".toList, ['a'], ['x'], Or.inl rfl, by simp, by decide,
      by simp, by decide, by decide⟩
  · exact ⟨".oss-y.aliyuncs.com".toList, by decide⟩
  · decide
  · decide

/-- Claim C3 (amended): `extractBuckets` returns exactly the distinct
matches found by the regex's left-to-right, non-overlapping, greedy scan,
in first-seen order: the output is duplicate-free, every element fully
matches the bucket pattern and occurs in the input text, and a string is in
the output iff the scan produced it.  (A pattern word that overlaps a
longer greedy match — e.g. a strict prefix of one — is not returned; see
the counterexample.) -/
theorem extractBuckets_scan_spec (text : String) :
    (extractBuckets text).Nodup
    ∧ (∀ b, b ∈ extractBuckets text →
        MatchesPattern b.toList ∧ b.toList <:+: text.toList)
    ∧ (∀ b, b ∈ extractBuckets text ↔ b ∈ scanStrings text) := by
  refine ⟨dedupFirst_nodup _, ?_, ?_⟩
  · intro b hb
    have hb' : b ∈ scanStrings text := (mem_dedupFirst _ _).mp hb
    rcases List.mem_map.mp hb' with ⟨cs, hcs, hmk⟩
    obtain ⟨l₁, n, hsuf, hml, hmtake⟩ := mem_scanAux _ _ _ hcs
    have hbl : b.toList = cs := by
      rw [← hmk]
      rfl
    constructor
    · rw [hbl, hmtake]
      exact matchLen_spec hml
    · rw [hbl, hmtake]
      obtain ⟨s, hs⟩ := hsuf
      refine ⟨s, l₁.drop n, ?_⟩
      rw [List.append_assoc, List.take_append_drop]
      exact hs
  · intro b
    exact mem_dedupFirst _ _

/-- Claim C3 (witness): the scan's own find on the counterexample text is a
pattern word occurring in the text. -/
theorem extractBuckets_scan_spec_witness :
    MatchesPattern exTextC3.toList ∧ exTextC3.toList <:+: exTextC3.toList :=
  (extractBuckets_scan_spec exTextC3).2.1 exTextC3 (by decide)
